import Mathlib

/-!
Verification of `emukit/quadrature/kernels/quadrature_matern32.py`.

The module computes closed-form integrals of a separable Matern-3/2
covariance kernel over an axis-aligned box under the Lebesgue measure.
We embed the two classes `QuadratureMatern32` (the general base variant,
whose integral operations raise `NotImplementedError`) and
`QuadratureProductMatern32LebesgueMeasure` (the concrete engine) as Lean
definitions over real numbers, with Python exceptions modelled by
`Except PyErr`.
-/

open Real

noncomputable section

/-- The Python exceptions this module can raise: `NotImplementedError`
from the general base variant, and `IndexError` from out-of-range
indexing into the bounds or lengthscales sequences. -/
inductive PyErr where
  | notImplementedError : PyErr
  | indexError : PyErr
deriving DecidableEq, Repr

/-- A two-dimensional numpy array: a shape `(shape0, shape1)` together
with an entry function (entries outside the shape are junk, as the shape
is the authority on which entries exist). -/
structure NDArray2 where
  shape0 : ℕ
  shape1 : ℕ
  entry : ℕ → ℕ → ℝ

/-- `A.T`, the numpy transpose: shape `(shape1, shape0)`, entries
mirrored. -/
def NDArray2.T (A : NDArray2) : NDArray2 :=
  ⟨A.shape1, A.shape0, fun i j => A.entry j i⟩

/-- The kernel parameter object (`IProductMatern32`): a lengthscale per
input dimension and a global variance. -/
structure IProductMatern32 where
  lengthscales : List ℝ
  variance : ℝ

/-- The bounds container: the ordered list of per-dimension
`(lower, upper)` pairs exposed as `integral_bounds.bounds`. -/
structure BoxBounds where
  bounds : List (ℝ × ℝ)

namespace QuadratureMatern32

/-- The general (non-Lebesgue) base variant: it wraps the kernel, the
optional bounds and nothing else that the integral operations read. -/
structure Cls where
  kern : IProductMatern32
  integral_bounds : Option BoxBounds

/-- `QuadratureMatern32.qK` raises `NotImplementedError`. -/
def qK (_e : Cls) (_x2 : NDArray2) : Except PyErr NDArray2 :=
  .error .notImplementedError

/-- `QuadratureMatern32.Kq` returns `self.qK(x1).T`. -/
def Kq (e : Cls) (x1 : NDArray2) : Except PyErr NDArray2 :=
  (qK e x1).map NDArray2.T

/-- `QuadratureMatern32.qKq` raises `NotImplementedError`. -/
def qKq (_e : Cls) : Except PyErr ℝ :=
  .error .notImplementedError

/-- `QuadratureMatern32.dqK_dx` raises `NotImplementedError`. -/
def dqK_dx (_e : Cls) (_x2 : NDArray2) : Except PyErr NDArray2 :=
  .error .notImplementedError

/-- `QuadratureMatern32.dKq_dx` returns `self.dqK_dx(x1).T`. -/
def dKq_dx (e : Cls) (x1 : NDArray2) : Except PyErr NDArray2 :=
  (dqK_dx e x1).map NDArray2.T

end QuadratureMatern32

namespace QuadratureProductMatern32LebesgueMeasure

/-- The Lebesgue-measure engine: it wraps the Matern kernel parameters
and the (finite) integral bounds; the measure argument of the base
constructor is fixed to `None`. -/
structure Cls where
  kern : IProductMatern32
  integral_bounds : BoxBounds

/-- Pass-through accessor `lengthscales`, delegating to the kernel. -/
def lengthscales (e : Cls) : List ℝ :=
  e.kern.lengthscales

/-- Pass-through accessor `variance`, delegating to the kernel. -/
def variance (e : Cls) : ℝ :=
  e.kern.variance

/-- Modelled from the spec: the `input_dim` accessor lives on the
`QuadratureKernel` base class, which is not part of the sources; the
spec says it is "derived from the bounds length". -/
def input_dim (e : Cls) : ℕ :=
  e.integral_bounds.bounds.length

/-- `_qK_1d(x, domain, ell)`: unscaled kernel mean of the 1-D Matern-3/2
kernel, integrated over `t ∈ [a, b]` and evaluated at `x`. -/
def qK_1d (x : ℝ) (domain : ℝ × ℝ) (ell : ℝ) : ℝ :=
  let a := domain.1
  let b := domain.2
  let s3 := Real.sqrt 3
  let first_term := 4 * ell / s3
  let second_term := -Real.exp (s3 * (x - b) / ell) * (b + 2 * ell / s3 - x)
  let third_term := -Real.exp (s3 * (a - x) / ell) * (x + 2 * ell / s3 - a)
  first_term + second_term + third_term

/-- `_qKq_1d(domain, ell)`: unscaled kernel variance of the 1-D
Matern-3/2 kernel, integrated over both arguments on `[a, b]`. -/
def qKq_1d (domain : ℝ × ℝ) (ell : ℝ) : ℝ :=
  let a := domain.1
  let b := domain.2
  let r := b - a
  let c := Real.sqrt 3 * r
  2 * ell / 3 * (2 * c - 3 * ell + Real.exp (-c / ell) * (c + 3 * ell))

/-- `_dqK_dx_1d(x, domain, ell)`: unscaled gradient of the 1-D
Matern-3/2 kernel mean with respect to `x`. -/
def dqK_dx_1d (x : ℝ) (domain : ℝ × ℝ) (ell : ℝ) : ℝ :=
  let s3 := Real.sqrt 3
  let a := domain.1
  let b := domain.2
  let exp_term_b := Real.exp (s3 * (x - b) / ell)
  let exp_term_a := Real.exp (s3 * (a - x) / ell)
  let first_term := exp_term_b * (-1 + (s3 / ell) * (x - b))
  let second_term := exp_term_a * (1 - (s3 / ell) * (a - x))
  first_term + second_term

/-- The loop of `qK`: starting from the accumulator `acc` (a length-N
vector, seeded with ones by the caller), run over the dimension indices
`dims`, skip those in `skip`, and for the rest multiply elementwise by
the 1-D kernel mean of that dimension; indexing `bounds[dim]` or
`lengthscales[dim]` out of range raises `IndexError`. -/
def qKloop (e : Cls) (x2 : NDArray2) (skip : List ℕ) :
    List ℕ → (ℕ → ℝ) → Except PyErr (ℕ → ℝ)
  | [], acc => .ok acc
  | dim :: rest, acc =>
    if dim ∈ skip then
      qKloop e x2 skip rest acc
    else
      match e.integral_bounds.bounds.get? dim, (lengthscales e).get? dim with
      | some domain, some ell =>
          qKloop e x2 skip rest
            (fun i => acc i * qK_1d (x2.entry i dim) domain ell)
      | some _, none => .error .indexError
      | none, _ => .error .indexError

/-- `qK(x2, skip)`: kernel mean at the rows of `x2`, returned as a
`(1, N)` row vector scaled by the variance (`qK[None, :] * variance`).
The loop runs over `range(x2.shape[1])`. -/
def qK (e : Cls) (x2 : NDArray2) (skip : List ℕ) : Except PyErr NDArray2 :=
  (qKloop e x2 skip (List.range x2.shape1) (fun _ => 1)).map
    (fun acc => ⟨1, x2.shape0, fun _ i => acc i * variance e⟩)

/-- `Kq(x1)`, inherited from the base class: `self.qK(x1).T`, where the
dynamically dispatched `qK` is the engine's with the default empty
skip list. -/
def Kq (e : Cls) (x1 : NDArray2) : Except PyErr NDArray2 :=
  (qK e x1 []).map NDArray2.T

/-- The loop of `qKq`: running product over the dimension indices
`dims`, multiplying in the 1-D kernel variance of each dimension. -/
def qKqLoop (e : Cls) : List ℕ → ℝ → Except PyErr ℝ
  | [], acc => .ok acc
  | dim :: rest, acc =>
    match e.integral_bounds.bounds.get? dim, (lengthscales e).get? dim with
    | some domain, some ell => qKqLoop e rest (acc * qKq_1d domain ell)
    | some _, none => .error .indexError
    | none, _ => .error .indexError

/-- `qKq()`: the kernel integrated over both arguments; the product of
the per-dimension factors over `range(input_dim)`, seeded at `1.0`,
scaled by the variance (`variance * qKq`). -/
def qKq (e : Cls) : Except PyErr ℝ :=
  (qKqLoop e (List.range (input_dim e)) 1).map (fun v => variance e * v)

/-- The loop of `dqK_dx`: starting from the all-zeros `(input_dim, N)`
matrix `acc`, for each dimension `dim` in `dims` compute the 1-D
gradient term and overwrite row `dim` with
`grad_term * qK(x2, skip=[dim])[0, :]`. -/
def dqKLoop (e : Cls) (x2 : NDArray2) :
    List ℕ → (ℕ → ℕ → ℝ) → Except PyErr (ℕ → ℕ → ℝ)
  | [], acc => .ok acc
  | dim :: rest, acc =>
    match e.integral_bounds.bounds.get? dim, (lengthscales e).get? dim with
    | some domain, some ell =>
      match qK e x2 [dim] with
      | .ok A =>
          dqKLoop e x2 rest
            (fun d i =>
              if d = dim then
                dqK_dx_1d (x2.entry i dim) domain ell * A.entry 0 i
              else acc d i)
      | .error err => .error err
    | some _, none => .error .indexError
    | none, _ => .error .indexError

/-- `dqK_dx(x2)`: gradient of the kernel mean, shape
`(input_dim, N)` where `input_dim = x2.shape[1]`, assembled row by row
from `np.zeros([input_dim, x2.shape[0]])`. -/
def dqK_dx (e : Cls) (x2 : NDArray2) : Except PyErr NDArray2 :=
  (dqKLoop e x2 (List.range x2.shape1) (fun _ _ => 0)).map
    (fun f => ⟨x2.shape1, x2.shape0, f⟩)

/-- `dKq_dx(x1)`, inherited from the base class:
`self.dqK_dx(x1).T`. -/
def dKq_dx (e : Cls) (x1 : NDArray2) : Except PyErr NDArray2 :=
  (dqK_dx e x1).map NDArray2.T

/-- The per-dimension factor that `qK` multiplies into the accumulator
for row `i` and dimension `dim` (with total indexing: the claims using
it always keep `dim` in range). -/
def qKFactor (e : Cls) (x2 : NDArray2) (i dim : ℕ) : ℝ :=
  qK_1d (x2.entry i dim) (e.integral_bounds.bounds.getD dim (0, 0))
    ((lengthscales e).getD dim 0)

lemma qKloop_skip_all (e : Cls) (x2 : NDArray2) (skip : List ℕ)
    (dims : List ℕ) (acc : ℕ → ℝ) (h : ∀ d ∈ dims, d ∈ skip) :
    qKloop e x2 skip dims acc = .ok acc := by
  induction dims with
  | nil => rfl
  | cons d rest ih =>
    have hd : d ∈ skip := h d (List.mem_cons_self d rest)
    rw [qKloop, if_pos hd]
    exact ih fun d' hd' => h d' (List.mem_cons_of_mem d hd')

lemma qKloop_ok (e : Cls) (x2 : NDArray2) (skip : List ℕ)
    (dims : List ℕ) (acc : ℕ → ℝ)
    (h : ∀ d ∈ dims, d ∉ skip →
      d < e.integral_bounds.bounds.length ∧ d < (lengthscales e).length) :
    qKloop e x2 skip dims acc = .ok (fun i => acc i *
      ((dims.filter fun d => decide (d ∉ skip)).map
        (fun d => qKFactor e x2 i d)).prod) := by
  induction dims generalizing acc with
  | nil => simp [qKloop]
  | cons d rest ih =>
    by_cases hd : d ∈ skip
    · rw [qKloop, if_pos hd,
        ih acc fun d' hd' => h d' (List.mem_cons_of_mem d hd')]
      simp [List.filter_cons, hd]
    · obtain ⟨hb, hl⟩ := h d (List.mem_cons_self d rest) hd
      have hbs : e.integral_bounds.bounds.get? d =
          some (e.integral_bounds.bounds.getD d (0, 0)) := by
        rw [List.getD_eq_getElem?_getD, List.get?_eq_getElem?,
          List.getElem?_eq_getElem hb]
        rfl
      have hls : (lengthscales e).get? d =
          some ((lengthscales e).getD d 0) := by
        rw [List.getD_eq_getElem?_getD, List.get?_eq_getElem?,
          List.getElem?_eq_getElem hl]
        rfl
      rw [qKloop, if_neg hd, hbs, hls]
      show qKloop e x2 skip rest (fun i => acc i *
        qK_1d (x2.entry i d) (e.integral_bounds.bounds.getD d (0, 0))
          ((lengthscales e).getD d 0)) = _
      rw [ih _ fun d' hd' => h d' (List.mem_cons_of_mem d hd')]
      refine congrArg Except.ok (funext fun i => ?_)
      simp only [List.filter_cons, decide_eq_true_eq, hd, not_false_iff,
        decide_True, if_true, List.map_cons, List.prod_cons, qKFactor]
      ring

lemma qKloop_error (e : Cls) (x2 : NDArray2) (skip : List ℕ)
    (dims : List ℕ) (acc : ℕ → ℝ) (d0 : ℕ) (hmem : d0 ∈ dims)
    (hskip : d0 ∉ skip)
    (herr : e.integral_bounds.bounds.get? d0 = none ∨
      (lengthscales e).get? d0 = none) :
    qKloop e x2 skip dims acc = .error .indexError := by
  induction dims generalizing acc with
  | nil => cases hmem
  | cons d rest ih =>
    by_cases hd : d ∈ skip
    · rw [qKloop, if_pos hd]
      have hne : d0 ≠ d := fun hEq => hskip (hEq ▸ hd)
      exact ih acc ((List.mem_cons.mp hmem).resolve_left hne)
    · rw [qKloop, if_neg hd]
      rcases hmem1 : e.integral_bounds.bounds.get? d with _ | dom
      · simp
      rcases hmem2 : (lengthscales e).get? d with _ | ell
      · simp
      simp only
      rcases List.mem_cons.mp hmem with hEq | hrest
      · subst hEq
        rcases herr with h1 | h1
        · rw [hmem1] at h1; cases h1
        · rw [hmem2] at h1; cases h1
      · exact ih _ hrest

end QuadratureProductMatern32LebesgueMeasure

open QuadratureProductMatern32LebesgueMeasure

/-- A concrete one-dimensional engine: bounds `[(0, 1)]`, lengthscale
`1`, variance `2`. -/
def egW : Cls :=
  ⟨⟨[1], 2⟩, ⟨[(0, 1)]⟩⟩

/-- A concrete two-dimensional engine: bounds `[(0, 1), (0, 1)]`,
lengthscales `[1, 1]`, variance `1`. -/
def egW2 : Cls :=
  ⟨⟨[1, 1], 1⟩, ⟨[(0, 1), (0, 1)]⟩⟩

/-- One evaluation point in one dimension, at the origin. -/
def ptsW : NDArray2 :=
  ⟨1, 1, fun _ _ => 0⟩

/-- One evaluation point with two columns. -/
def ptsW2 : NDArray2 :=
  ⟨1, 2, fun _ _ => 0⟩

/-- C8: `qK`, `qKq` and `dqK_dx` on the general (non-Lebesgue) base
variant signal `NotImplementedError` — distinct from the computational
`IndexError` — for every input, and never return a value. -/
theorem base_variant_not_implemented (e : QuadratureMatern32.Cls)
    (x2 : NDArray2) :
    QuadratureMatern32.qK e x2 = .error .notImplementedError ∧
    QuadratureMatern32.qKq e = .error .notImplementedError ∧
    QuadratureMatern32.dqK_dx e x2 = .error .notImplementedError ∧
    PyErr.notImplementedError ≠ PyErr.indexError :=
  ⟨rfl, rfl, rfl, by decide⟩

/-- C10: when the skip list contains every dimension index of the
points array, `qK` succeeds with a `(1, N)` array all of whose entries
equal the variance (the all-ones accumulator scaled by the variance). -/
theorem qK_skip_all_dims (e : Cls) (x2 : NDArray2) (skip : List ℕ)
    (h : ∀ d < x2.shape1, d ∈ skip) :
    ∃ A, qK e x2 skip = Except.ok A ∧ A.shape0 = 1 ∧
      A.shape1 = x2.shape0 ∧ ∀ i, A.entry 0 i = variance e := by
  unfold qK
  rw [qKloop_skip_all e x2 skip _ _
    (fun d hd => h d (List.mem_range.mp hd))]
  exact ⟨_, rfl, rfl, rfl, fun i => one_mul _⟩

/-- C10 witness: on the concrete one-dimensional engine with skip list
`[0]`, `qK` returns the variance in every entry. -/
theorem qK_skip_all_dims_witness :
    ∃ A, qK egW ptsW [0] = Except.ok A ∧ A.shape0 = 1 ∧
      A.shape1 = ptsW.shape0 ∧ ∀ i, A.entry 0 i = variance egW :=
  qK_skip_all_dims egW ptsW [0] (by decide)

/-- C1: for points of shape `(N, D)` with `D ≥ 1` matching the engine's
bounds and lengthscales, `qK(points, skip)` succeeds with shape `(1, N)`
and entry `[0, i]` equal to the variance times the product, over every
dimension `d` not in the skip list, of the 1-D kernel mean factor of
dimension `d` at row `i`; the empty skip list gives the full separable
product and `skip = [d]` the same product with factor `d` omitted. -/
theorem qK_separability (e : Cls) (x2 : NDArray2) (skip : List ℕ)
    (hD : 1 ≤ x2.shape1)
    (hb : x2.shape1 = e.integral_bounds.bounds.length)
    (hl : x2.shape1 = (lengthscales e).length) :
    ∃ A, qK e x2 skip = Except.ok A ∧ A.shape0 = 1 ∧
      A.shape1 = x2.shape0 ∧ ∀ i, A.entry 0 i = variance e *
        (((List.range x2.shape1).filter fun d => decide (d ∉ skip)).map
          (fun d => qKFactor e x2 i d)).prod := by
  unfold qK
  rw [qKloop_ok e x2 skip _ _ (fun d hd _ =>
    ⟨hb ▸ List.mem_range.mp hd, hl ▸ List.mem_range.mp hd⟩)]
  refine ⟨_, rfl, rfl, rfl, fun i => ?_⟩
  show (1 : ℝ) * _ * variance e = _
  ring

/-- C1 witness: the concrete one-dimensional engine at the origin with
an empty skip list. -/
theorem qK_separability_witness :
    ∃ A, qK egW ptsW [] = Except.ok A ∧ A.shape0 = 1 ∧
      A.shape1 = ptsW.shape0 ∧ ∀ i, A.entry 0 i = variance egW *
        (((List.range ptsW.shape1).filter fun d => decide (d ∉ ([] : List ℕ))).map
          (fun d => qKFactor egW ptsW i d)).prod :=
  qK_separability egW ptsW [] (Nat.le_refl 1) rfl rfl

/-- C6: on the Lebesgue engine, `Kq` is exactly the transpose of `qK`
and `dKq_dx` exactly the transpose of `dqK_dx` (each is implemented as
a transpose of the other, so the values are identical), and the
transpose swaps the shape and mirrors every entry. -/
theorem Kq_dKq_are_transposes (e : Cls) (x2 : NDArray2) :
    (∀ A, qK e x2 [] = Except.ok A → Kq e x2 = Except.ok A.T) ∧
    (∀ G, dqK_dx e x2 = Except.ok G → dKq_dx e x2 = Except.ok G.T) ∧
    ∀ A : NDArray2, A.T.shape0 = A.shape1 ∧ A.T.shape1 = A.shape0 ∧
      ∀ i j, A.T.entry i j = A.entry j i := by
  refine ⟨fun A hA => ?_, fun G hG => ?_,
    fun A => ⟨rfl, rfl, fun i j => rfl⟩⟩
  · unfold Kq
    rw [hA]
    rfl
  · unfold dKq_dx
    rw [hG]
    rfl

/-- C6 witness: on the concrete one-dimensional engine, `qK` succeeds
and `Kq` returns exactly its transpose. -/
theorem Kq_dKq_are_transposes_witness :
    ∃ A, qK egW ptsW [] = Except.ok A ∧ Kq egW ptsW = Except.ok A.T :=
  ⟨_, rfl, (Kq_dKq_are_transposes egW ptsW).1 _ rfl⟩

/-- C7 counterexample: on the concrete two-dimensional engine, a points
array with a single column (column count `1`, differing from the two
bound pairs and two lengthscales) makes `qK` succeed — it silently
truncates the product to the supplied column instead of failing
fast. -/
theorem qK_truncation_no_failfast :
    ptsW.shape1 ≠ egW2.integral_bounds.bounds.length ∧
    ptsW.shape1 ≠ (lengthscales egW2).length ∧
    ∃ A, qK egW2 ptsW [] = Except.ok A :=
  ⟨by decide, by decide, ⟨_, rfl⟩⟩

/-- C7 amended: with an empty skip list, when the points array has MORE
columns than the bounds or the lengthscales, `qK` fails fast with an
`IndexError`; when it has no more columns than either, `qK` succeeds,
silently truncating the computation to the variance-scaled product over
only the supplied columns `d = 0 .. shape1 - 1` (even when the engine
has more dimensions than that). -/
theorem qK_dim_mismatch (e : Cls) (x2 : NDArray2) :
    (min e.integral_bounds.bounds.length (lengthscales e).length <
        x2.shape1 →
      qK e x2 [] = Except.error PyErr.indexError) ∧
    (x2.shape1 ≤ e.integral_bounds.bounds.length →
      x2.shape1 ≤ (lengthscales e).length →
      ∃ A, qK e x2 [] = Except.ok A ∧ A.shape0 = 1 ∧
        A.shape1 = x2.shape0 ∧ ∀ i, A.entry 0 i = variance e *
          ((List.range x2.shape1).map
            (fun d => qKFactor e x2 i d)).prod) := by
  constructor
  · intro hlt
    unfold qK
    have herr : e.integral_bounds.bounds.get?
          (min e.integral_bounds.bounds.length (lengthscales e).length) =
          none ∨
        (lengthscales e).get?
          (min e.integral_bounds.bounds.length (lengthscales e).length) =
          none := by
      rcases le_total e.integral_bounds.bounds.length
        (lengthscales e).length with hle | hle
      · exact Or.inl (List.get?_eq_none.mpr (min_eq_left hle).ge)
      · exact Or.inr (List.get?_eq_none.mpr (min_eq_right hle).ge)
    rw [qKloop_error e x2 [] _ _ _ (List.mem_range.mpr hlt)
      (List.not_mem_nil _) herr]
    rfl
  · intro hb hl
    rw [qK, qKloop_ok e x2 [] _ _ (fun d hd _ =>
      ⟨lt_of_lt_of_le (List.mem_range.mp hd) hb,
       lt_of_lt_of_le (List.mem_range.mp hd) hl⟩)]
    have hfil : ((List.range x2.shape1).filter fun d =>
        decide (d ∉ ([] : List ℕ))) = List.range x2.shape1 :=
      List.filter_eq_self.mpr (fun a _ => by simp)
    refine ⟨_, rfl, rfl, rfl, fun i => ?_⟩
    show (1 : ℝ) * (((List.range x2.shape1).filter fun d =>
        decide (d ∉ ([] : List ℕ))).map
          (fun d => qKFactor e x2 i d)).prod * variance e = _
    rw [hfil]
    ring

/-- C7 amended witness: the one-dimensional engine fails with an
`IndexError` on two-column points, and succeeds on one-column points
with the product over the supplied column. -/
theorem qK_dim_mismatch_witness :
    qK egW ptsW2 [] = Except.error PyErr.indexError ∧
    ∃ A, qK egW ptsW [] = Except.ok A ∧ A.shape0 = 1 ∧
      A.shape1 = ptsW.shape0 ∧ ∀ i, A.entry 0 i = variance egW *
        ((List.range ptsW.shape1).map
          (fun d => qKFactor egW ptsW i d)).prod :=
  ⟨(qK_dim_mismatch egW ptsW2).1 (by decide),
   (qK_dim_mismatch egW ptsW).2 (by decide) (by decide)⟩

/-- In-range default indexing lands in the list. -/
lemma getD_mem_of_lt {α : Type} (l : List α) (n : ℕ) (h : n < l.length)
    (d : α) : l.getD n d ∈ l := by
  rw [List.getD_eq_getElem?_getD, List.getElem?_eq_getElem h]
  exact List.getElem_mem h

lemma qKqLoop_ok (e : Cls) (dims : List ℕ) (acc : ℝ)
    (h : ∀ d ∈ dims,
      d < e.integral_bounds.bounds.length ∧ d < (lengthscales e).length) :
    qKqLoop e dims acc = .ok (acc * (dims.map (fun d =>
      qKq_1d (e.integral_bounds.bounds.getD d (0, 0))
        ((lengthscales e).getD d 0))).prod) := by
  induction dims generalizing acc with
  | nil => simp [qKqLoop]
  | cons d rest ih =>
    obtain ⟨hb, hl⟩ := h d (List.mem_cons_self d rest)
    have hbs : e.integral_bounds.bounds.get? d =
        some (e.integral_bounds.bounds.getD d (0, 0)) := by
      rw [List.getD_eq_getElem?_getD, List.get?_eq_getElem?,
        List.getElem?_eq_getElem hb]
      rfl
    have hls : (lengthscales e).get? d =
        some ((lengthscales e).getD d 0) := by
      rw [List.getD_eq_getElem?_getD, List.get?_eq_getElem?,
        List.getElem?_eq_getElem hl]
      rfl
    rw [qKqLoop, hbs, hls]
    show qKqLoop e rest (acc * qKq_1d (e.integral_bounds.bounds.getD d (0, 0))
      ((lengthscales e).getD d 0)) = _
    rw [ih _ fun d' hd' => h d' (List.mem_cons_of_mem d hd')]
    refine congrArg Except.ok ?_
    rw [List.map_cons, List.prod_cons]
    ring

/-- C2: `qKq()` succeeds with the plain scalar equal to the variance
times the product over every dimension `d = 0 .. input_dim - 1` of the
1-D double integral of that dimension's bounds and lengthscale, and the
1-D double integral is the closed form
`(2 ell / 3) (2 c - 3 ell + exp(-c / ell) (c + 3 ell))` with
`c = sqrt 3 (b - a)`. -/
theorem qKq_product (e : Cls)
    (hlen : e.integral_bounds.bounds.length = (lengthscales e).length) :
    (qKq e = Except.ok (variance e *
      ((List.range (input_dim e)).map (fun d =>
        qKq_1d (e.integral_bounds.bounds.getD d (0, 0))
          ((lengthscales e).getD d 0))).prod)) ∧
    ∀ a b ell : ℝ, qKq_1d (a, b) ell =
      2 * ell / 3 * (2 * (Real.sqrt 3 * (b - a)) - 3 * ell +
        Real.exp (-(Real.sqrt 3 * (b - a)) / ell) *
          (Real.sqrt 3 * (b - a) + 3 * ell)) := by
  constructor
  · unfold qKq input_dim
    rw [qKqLoop_ok e _ _ (fun d hd =>
      ⟨List.mem_range.mp hd, hlen ▸ List.mem_range.mp hd⟩)]
    show Except.ok (variance e * (1 * _)) = _
    rw [one_mul]
  · intro a b ell
    rfl

/-- C2 witness: the product formula evaluated on the concrete
one-dimensional engine. -/
theorem qKq_product_witness :
    qKq egW = Except.ok (variance egW *
      ((List.range (input_dim egW)).map (fun d =>
        qKq_1d (egW.integral_bounds.bounds.getD d (0, 0))
          ((lengthscales egW).getD d 0))).prod) :=
  (qKq_product egW rfl).1

/-- The dimensionless core of the 1-D double integral is non-negative:
with `t = c / ell ≥ 0`, the factor `2 t - 3 + exp(-t) (t + 3)` is
non-negative (via `exp(-t) ≥ (1 - t/3)^3` on `t ≤ 3`). -/
lemma qKq_core_nonneg (t : ℝ) (ht : 0 ≤ t) :
    0 ≤ 2 * t - 3 + Real.exp (-t) * (t + 3) := by
  rcases le_total t 3 with h3 | h3
  · have h1 : 0 ≤ 1 - t / 3 := by linarith
    have h2 : 1 - t / 3 ≤ Real.exp (-(t / 3)) := by
      have := Real.add_one_le_exp (-(t / 3))
      linarith
    have h4 : (1 - t / 3) ^ 3 ≤ Real.exp (-(t / 3)) ^ 3 :=
      pow_le_pow_left₀ h1 h2 3
    have h5 : Real.exp (-(t / 3)) ^ 3 = Real.exp (-t) := by
      rw [← Real.exp_nat_mul]
      congr 1
      push_cast
      ring
    rw [h5] at h4
    have h6 : (1 - t / 3) ^ 3 * (t + 3) ≤ Real.exp (-t) * (t + 3) :=
      mul_le_mul_of_nonneg_right h4 (by linarith)
    have h7 : 0 ≤ t ^ 3 * (6 - t) := mul_nonneg (pow_nonneg ht 3) (by linarith)
    nlinarith [h6, h7]
  · nlinarith [mul_nonneg (Real.exp_nonneg (-t))
      (show (0:ℝ) ≤ t + 3 by linarith)]

/-- The 1-D double integral is non-negative for `a ≤ b` and
`ell > 0`. -/
lemma qKq_1d_nonneg (a b ell : ℝ) (hab : a ≤ b) (hell : 0 < ell) :
    0 ≤ qKq_1d (a, b) ell := by
  have hc0 : 0 ≤ Real.sqrt 3 * (b - a) :=
    mul_nonneg (Real.sqrt_nonneg 3) (by linarith)
  have ht0 : 0 ≤ Real.sqrt 3 * (b - a) / ell := div_nonneg hc0 hell.le
  have key := qKq_core_nonneg _ ht0
  show 0 ≤ 2 * ell / 3 * (2 * (Real.sqrt 3 * (b - a)) - 3 * ell +
    Real.exp (-(Real.sqrt 3 * (b - a)) / ell) *
      (Real.sqrt 3 * (b - a) + 3 * ell))
  rw [neg_div]
  have heq : 2 * ell / 3 * (2 * (Real.sqrt 3 * (b - a)) - 3 * ell +
      Real.exp (-(Real.sqrt 3 * (b - a) / ell)) *
        (Real.sqrt 3 * (b - a) + 3 * ell)) =
      2 * ell ^ 2 / 3 * (2 * (Real.sqrt 3 * (b - a) / ell) - 3 +
        Real.exp (-(Real.sqrt 3 * (b - a) / ell)) *
          (Real.sqrt 3 * (b - a) / ell + 3)) := by
    field_simp
    ring
  rw [heq]
  exact mul_nonneg (by positivity) key

/-- C5: with finite bounds `lower < upper` in every dimension, strictly
positive lengthscales and positive variance, `qKq()` succeeds and its
value is non-negative; moreover every 1-D factor
`(2 ell / 3) (2 c - 3 ell + exp(-c / ell) (c + 3 ell))` is itself
non-negative. -/
theorem qKq_nonneg (e : Cls)
    (hlen : e.integral_bounds.bounds.length = (lengthscales e).length)
    (hbd : ∀ p ∈ e.integral_bounds.bounds, p.1 < p.2)
    (hell : ∀ l ∈ lengthscales e, 0 < l)
    (hvar : 0 < variance e) :
    (∃ v, qKq e = Except.ok v ∧ 0 ≤ v) ∧
    ∀ a b ell : ℝ, a < b → 0 < ell → 0 ≤ qKq_1d (a, b) ell := by
  have h1d : ∀ a b ell : ℝ, a < b → 0 < ell → 0 ≤ qKq_1d (a, b) ell :=
    fun a b ell hab hl => qKq_1d_nonneg a b ell hab.le hl
  refine ⟨?_, h1d⟩
  unfold qKq input_dim
  rw [qKqLoop_ok e _ _ (fun d hd =>
    ⟨List.mem_range.mp hd, hlen ▸ List.mem_range.mp hd⟩)]
  refine ⟨_, rfl, mul_nonneg hvar.le (mul_nonneg zero_le_one
    (List.prod_nonneg fun x hx => ?_))⟩
  obtain ⟨d, hd, rfl⟩ := List.mem_map.mp hx
  have hdlen : d < e.integral_bounds.bounds.length := List.mem_range.mp hd
  have hp := hbd _ (getD_mem_of_lt _ d hdlen (0, 0))
  have hl := hell _ (getD_mem_of_lt _ d (hlen ▸ hdlen) 0)
  exact qKq_1d_nonneg _ _ _ hp.le hl

/-- C5 witness: the concrete one-dimensional engine has a non-negative
double-integrated kernel. -/
theorem qKq_nonneg_witness :
    ∃ v, qKq egW = Except.ok v ∧ 0 ≤ v :=
  (qKq_nonneg egW rfl
    (fun p hp => by
      rcases List.mem_singleton.mp hp with rfl
      norm_num)
    (fun l hl => by
      rcases List.mem_singleton.mp hl with rfl
      norm_num)
    (show (0:ℝ) < 2 by norm_num)).1

/-- C9: the 1-D kernel mean is symmetric under reflection of the
evaluation point through the midpoint of the domain:
`qK_1d (a + b - x) = qK_1d x` on the domain `(a, b)`. -/
theorem qK_1d_reflection (a b ell x : ℝ) (hab : a < b) (hell : 0 < ell) :
    qK_1d (a + b - x) (a, b) ell = qK_1d x (a, b) ell := by
  show 4 * ell / Real.sqrt 3 +
      -Real.exp (Real.sqrt 3 * (a + b - x - b) / ell) *
        (b + 2 * ell / Real.sqrt 3 - (a + b - x)) +
      -Real.exp (Real.sqrt 3 * (a - (a + b - x)) / ell) *
        (a + b - x + 2 * ell / Real.sqrt 3 - a) =
    4 * ell / Real.sqrt 3 +
      -Real.exp (Real.sqrt 3 * (x - b) / ell) *
        (b + 2 * ell / Real.sqrt 3 - x) +
      -Real.exp (Real.sqrt 3 * (a - x) / ell) *
        (x + 2 * ell / Real.sqrt 3 - a)
  rw [show Real.sqrt 3 * (a + b - x - b) / ell =
      Real.sqrt 3 * (a - x) / ell by ring,
    show Real.sqrt 3 * (a - (a + b - x)) / ell =
      Real.sqrt 3 * (x - b) / ell by ring]
  ring

/-- C9 witness: reflection symmetry on the unit domain with unit
lengthscale at the point `3`. -/
theorem qK_1d_reflection_witness :
    qK_1d (0 + 1 - 3) (0, 1) 1 = qK_1d 3 (0, 1) 1 :=
  qK_1d_reflection 0 1 1 3 (by norm_num) (by norm_num)

/-- C4: the 1-D gradient primitive is the exact derivative of the 1-D
kernel mean with respect to the evaluation point, over exact real
arithmetic: `x ↦ qK_1d x (a, b) ell` has derivative
`dqK_dx_1d x (a, b) ell` at every `x`, for `a < b` and `ell > 0`. -/
theorem dqK_dx_1d_is_deriv (a b ell x : ℝ) (hab : a < b) (hell : 0 < ell) :
    HasDerivAt (fun y => qK_1d y (a, b) ell) (dqK_dx_1d x (a, b) ell) x := by
  have hs3 : Real.sqrt 3 ≠ 0 := by positivity
  have hlne : ell ≠ 0 := hell.ne'
  have hu1 : HasDerivAt (fun y : ℝ => Real.sqrt 3 * (y - b) / ell)
      (Real.sqrt 3 * 1 / ell) x :=
    (((hasDerivAt_id x).sub_const b).const_mul (Real.sqrt 3)).div_const ell
  have he1 := hu1.exp
  have hv1 : HasDerivAt (fun y : ℝ => b + 2 * ell / Real.sqrt 3 - y)
      (-1 : ℝ) x := by
    simpa using (hasDerivAt_id x).const_sub (b + 2 * ell / Real.sqrt 3)
  have hu2 : HasDerivAt (fun y : ℝ => Real.sqrt 3 * (a - y) / ell)
      (Real.sqrt 3 * (-1) / ell) x :=
    (((hasDerivAt_id x).const_sub a).const_mul (Real.sqrt 3)).div_const ell
  have he2 := hu2.exp
  have hv2 : HasDerivAt (fun y : ℝ => y + 2 * ell / Real.sqrt 3 - a)
      (1 : ℝ) x :=
    ((hasDerivAt_id x).add_const (2 * ell / Real.sqrt 3)).sub_const a
  have hm1 := (he1.neg).mul hv1
  have hm2 := (he2.neg).mul hv2
  have total := ((hasDerivAt_const x (4 * ell / Real.sqrt 3)).add hm1).add hm2
  have hfun : (fun y => qK_1d y (a, b) ell) =
      (fun y => 4 * ell / Real.sqrt 3 +
        -Real.exp (Real.sqrt 3 * (y - b) / ell) *
          (b + 2 * ell / Real.sqrt 3 - y) +
        -Real.exp (Real.sqrt 3 * (a - y) / ell) *
          (y + 2 * ell / Real.sqrt 3 - a)) := rfl
  rw [hfun]
  convert total using 1
  show dqK_dx_1d x (a, b) ell = _
  simp only [dqK_dx_1d]
  field_simp
  ring

/-- C4 witness: the derivative identity at the origin on the unit
domain with unit lengthscale. -/
theorem dqK_dx_1d_is_deriv_witness :
    HasDerivAt (fun y => qK_1d y (0, 1) 1) (dqK_dx_1d 0 (0, 1) 1) 0 :=
  dqK_dx_1d_is_deriv 0 1 1 0 (by norm_num) (by norm_num)

/-- The value of row `d` of the gradient at row `i` of the points: the
1-D gradient term of dimension `d` times the entry of
`qK(x2, skip=[d])`. -/
def gradRowVal (e : Cls) (x2 : NDArray2) (d i : ℕ) : ℝ :=
  dqK_dx_1d (x2.entry i d) (e.integral_bounds.bounds.getD d (0, 0))
    ((lengthscales e).getD d 0) *
  (1 * (((List.range x2.shape1).filter fun d' =>
      decide (d' ∉ [d])).map (fun d' => qKFactor e x2 i d')).prod *
    variance e)

lemma qK_skip_one_ok (e : Cls) (x2 : NDArray2) (d : ℕ)
    (hb : x2.shape1 = e.integral_bounds.bounds.length)
    (hl : x2.shape1 = (lengthscales e).length) :
    qK e x2 [d] = Except.ok ⟨1, x2.shape0, fun _ i =>
      1 * (((List.range x2.shape1).filter fun d' =>
        decide (d' ∉ [d])).map (fun d' => qKFactor e x2 i d')).prod *
      variance e⟩ := by
  unfold qK
  rw [qKloop_ok e x2 [d] _ _ (fun d' hd' _ =>
    ⟨hb ▸ List.mem_range.mp hd', hl ▸ List.mem_range.mp hd'⟩)]
  rfl

lemma dqKLoop_ok (e : Cls) (x2 : NDArray2)
    (hb : x2.shape1 = e.integral_bounds.bounds.length)
    (hl : x2.shape1 = (lengthscales e).length)
    (dims : List ℕ) (hdims : ∀ d ∈ dims, d < x2.shape1)
    (acc : ℕ → ℕ → ℝ) :
    ∃ f, dqKLoop e x2 dims acc = .ok f ∧
      (∀ d ∈ dims, ∀ i, f d i = gradRowVal e x2 d i) ∧
      (∀ d, d ∉ dims → ∀ i, f d i = acc d i) := by
  induction dims generalizing acc with
  | nil =>
    exact ⟨acc, rfl, fun d hd => absurd hd (List.not_mem_nil d),
      fun d _ i => rfl⟩
  | cons d rest ih =>
    have hdlt := hdims d (List.mem_cons_self d rest)
    have hbs : e.integral_bounds.bounds.get? d =
        some (e.integral_bounds.bounds.getD d (0, 0)) := by
      rw [List.getD_eq_getElem?_getD, List.get?_eq_getElem?,
        List.getElem?_eq_getElem (hb ▸ hdlt)]
      rfl
    have hls : (lengthscales e).get? d =
        some ((lengthscales e).getD d 0) := by
      rw [List.getD_eq_getElem?_getD, List.get?_eq_getElem?,
        List.getElem?_eq_getElem (hl ▸ hdlt)]
      rfl
    obtain ⟨f, hf, hmem, hnot⟩ :=
      ih (fun d' hd' => hdims d' (List.mem_cons_of_mem d hd'))
        (fun d2 i => if d2 = d then gradRowVal e x2 d i else acc d2 i)
    refine ⟨f, ?_, ?_, ?_⟩
    · rw [dqKLoop, hbs, hls]
      show (match qK e x2 [d] with
        | .ok A => dqKLoop e x2 rest
            (fun d2 i => if d2 = d then
              dqK_dx_1d (x2.entry i d)
                (e.integral_bounds.bounds.getD d (0, 0))
                ((lengthscales e).getD d 0) * A.entry 0 i
              else acc d2 i)
        | .error err => .error err) = Except.ok f
      rw [qK_skip_one_ok e x2 d hb hl]
      exact hf
    · intro d' hd' i
      rcases List.mem_cons.mp hd' with rfl | hrest
      · by_cases hin : d' ∈ rest
        · exact hmem d' hin i
        · rw [hnot d' hin i, if_pos rfl]
      · exact hmem d' hrest i
    · intro d' hd' i
      have hne : d' ≠ d := fun hEq => hd' (hEq ▸ List.mem_cons_self d rest)
      rw [hnot d' (fun hr => hd' (List.mem_cons_of_mem d hr)) i, if_neg hne]

/-- C3: for points of shape `(N, D)` matching the engine's parameters,
`dqK_dx` succeeds with shape `(D, N)`, row `d` being the elementwise
product of the 1-D gradient term of dimension `d` with row 0 of
`qK(points, skip=[d])` (which already carries the variance factor
exactly once); in particular for `D = 1` each entry is the 1-D gradient
term times the variance. -/
theorem dqK_dx_product_rule (e : Cls) (x2 : NDArray2)
    (hb : x2.shape1 = e.integral_bounds.bounds.length)
    (hl : x2.shape1 = (lengthscales e).length) :
    ∃ G, dqK_dx e x2 = Except.ok G ∧ G.shape0 = x2.shape1 ∧
      G.shape1 = x2.shape0 ∧
      (∀ d < x2.shape1, ∀ i, ∃ A, qK e x2 [d] = Except.ok A ∧
        G.entry d i = dqK_dx_1d (x2.entry i d)
          (e.integral_bounds.bounds.getD d (0, 0))
          ((lengthscales e).getD d 0) * A.entry 0 i) ∧
      (x2.shape1 = 1 → ∀ i, G.entry 0 i =
        dqK_dx_1d (x2.entry i 0) (e.integral_bounds.bounds.getD 0 (0, 0))
          ((lengthscales e).getD 0 0) * variance e) := by
  obtain ⟨f, hf, hmem, _⟩ := dqKLoop_ok e x2 hb hl
    (List.range x2.shape1) (fun d hd => List.mem_range.mp hd)
    (fun _ _ => 0)
  rw [dqK_dx, hf]
  refine ⟨_, rfl, rfl, rfl, fun d hd i => ?_, fun h1 i => ?_⟩
  · refine ⟨_, qK_skip_one_ok e x2 d hb hl, ?_⟩
    show f d i = _
    rw [hmem d (List.mem_range.mpr hd) i]
    rfl
  · show f 0 i = _
    rw [hmem 0 (List.mem_range.mpr (h1 ▸ Nat.zero_lt_one)) i]
    unfold gradRowVal
    rw [h1]
    rw [show ((List.range 1).filter fun d' => decide (d' ∉ [0])) = [] from rfl]
    rw [List.map_nil, List.prod_nil]
    ring

/-- C3 witness: the gradient product rule on the concrete
one-dimensional engine. -/
theorem dqK_dx_product_rule_witness :
    ∃ G, dqK_dx egW ptsW = Except.ok G ∧ G.shape0 = ptsW.shape1 ∧
      G.shape1 = ptsW.shape0 ∧
      (∀ d < ptsW.shape1, ∀ i, ∃ A, qK egW ptsW [d] = Except.ok A ∧
        G.entry d i = dqK_dx_1d (ptsW.entry i d)
          (egW.integral_bounds.bounds.getD d (0, 0))
          ((lengthscales egW).getD d 0) * A.entry 0 i) ∧
      (ptsW.shape1 = 1 → ∀ i, G.entry 0 i =
        dqK_dx_1d (ptsW.entry i 0)
          (egW.integral_bounds.bounds.getD 0 (0, 0))
          ((lengthscales egW).getD 0 0) * variance egW) :=
  dqK_dx_product_rule egW ptsW rfl rfl
